import Mathlib

/-!
Shallow embedding of `scripts/dict_parser.py` (Assyrian/Arabic dictionary
parser).  Strings are modelled as `List Char`; every Python regex used by the
parser is small enough to be modelled by a direct deterministic scanner with
the same leftmost-match and greedy/backtracking semantics.  Paragraph records
(the docx collaborator) are modelled by their two observable fields: the text
and the list-item flag.
-/

namespace DictParser

/-- Whitespace in the sense of Python (`str.strip`, regex `\s` on `str`):
the characters accepted by `Py_UNICODE_ISSPACE`. -/
def isPySpace (c : Char) : Bool :=
  let n := c.toNat
  (0x09 ≤ n && n ≤ 0x0D) || n == 0x20 || (0x1C ≤ n && n ≤ 0x1F) || n == 0x85 ||
  n == 0xA0 || n == 0x1680 || (0x2000 ≤ n && n ≤ 0x200A) || n == 0x2028 ||
  n == 0x2029 || n == 0x202F || n == 0x205F || n == 0x3000

/-- Syriac block, source constant `SYRIAC_RANGE` = U+0700..U+074F. -/
def isSyriac (c : Char) : Bool := 0x0700 ≤ c.toNat && c.toNat ≤ 0x074F

/-- Arabic block, source constant `ARABIC_RANGE` = U+0600..U+06FF. -/
def isArabicChar (c : Char) : Bool := 0x0600 ≤ c.toNat && c.toNat ≤ 0x06FF

/-- Source constant `IPA_LATIN_RANGE`: basic Latin letters, IPA extensions,
phonetic extensions, spacing modifier letters. -/
def isIpaLatin (c : Char) : Bool :=
  let n := c.toNat
  (0x41 ≤ n && n ≤ 0x5A) || (0x61 ≤ n && n ≤ 0x7A) ||
  (0x0250 ≤ n && n ≤ 0x02AF) || (0x1D00 ≤ n && n ≤ 0x1DFF) ||
  (0x02B0 ≤ n && n ≤ 0x02FF)

/-- Python `str.strip()`: drop Python whitespace from both ends. -/
def pyStrip (l : List Char) : List Char :=
  ((l.dropWhile isPySpace).reverse.dropWhile isPySpace).reverse

/-- The substitution `RE_MULTISPACE.sub(" ", s)` with `RE_MULTISPACE = \s{2,}`:
every maximal run of two or more whitespace characters becomes one space;
an isolated single whitespace character is left unchanged. -/
def collapseWS : List Char → List Char
  | [] => []
  | [c] => [c]
  | c :: c2 :: rest =>
    if isPySpace c && isPySpace c2 then ' ' :: (collapseWS (c2 :: rest)).tail
    else c :: collapseWS (c2 :: rest)

/-- The dash folding `s.replace("–","-").replace("—","-")`, per char. -/
def foldDash (c : Char) : Char :=
  if c.toNat == 0x2013 || c.toNat == 0x2014 then '-' else c

/-- Tatweel, U+0640, removed by `RE_TATWEEL.sub("", s)`. -/
def isTatweel (c : Char) : Bool := c.toNat == 0x0640

/-- Source `normalize_text`: fold dashes, remove tatweel, strip, collapse
multi-whitespace runs. -/
def normalize_text (l : List Char) : List Char :=
  collapseWS (pyStrip ((l.map foldDash).filter (fun c => !isTatweel c)))

/-- A dash character accepted by `RE_DASH_START` (`-`, en dash, em dash). -/
def isDashMark (c : Char) : Bool :=
  c == '-' || c.toNat == 0x2013 || c.toNat == 0x2014

/-- Source `is_subentry_line`: the regex `^\s*[-–—]\s+` matches. -/
def is_subentry_line (s : List Char) : Bool :=
  match s.dropWhile isPySpace with
  | d :: c :: _ => isDashMark d && isPySpace c
  | _ => false

/-- Source `strip_subentry_marker`: remove the first `RE_DASH_START` match
(if any) and strip the result. -/
def strip_subentry_marker (s : List Char) : List Char :=
  match s.dropWhile isPySpace with
  | d :: c :: rest =>
    if isDashMark d && isPySpace c then pyStrip ((c :: rest).dropWhile isPySpace)
    else pyStrip s
  | _ => pyStrip s

/-- Separator class of group 1 of the plural pattern: `[\s؛،]`. -/
def sep1 (c : Char) : Bool := isPySpace c || c.toNat == 0x061B || c.toNat == 0x060C

/-- The splitting class `[،,;/؛]` used on the matched plural forms. -/
def sep2 (c : Char) : Bool :=
  c.toNat == 0x060C || c == ',' || c == ';' || c == '/' || c.toNat == 0x061B

/-- Character class of group 2 of the plural pattern: Syriac block,
whitespace, and the separators. -/
def pluralClass (c : Char) : Bool := isSyriac c || isPySpace c || sep2 c

/-- Arabic letter jeem, the plural introducer. -/
def jeem : Char := 'ج'

/-- Matching of `\s*([pluralClass]+)` (greedy star with backtracking) against
the text following the introducer; returns the captured group 2 and the text
after the whole match, or `none` when the tail cannot match. -/
def pluralTailMatch (tail : List Char) : Option (List Char × List Char) :=
  match tail with
  | [] => none
  | c :: _ =>
    if pluralClass c then
      let r := tail.dropWhile isPySpace
      match r with
      | [] => some ([(tail.takeWhile isPySpace).getLastD ' '], r)
      | c2 :: _ =>
        if pluralClass c2 then some (r.takeWhile pluralClass, r.dropWhile pluralClass)
        else some ([(tail.takeWhile isPySpace).getLastD ' '], r)
    else none

/-- Leftmost search for the `[\s؛،]ج...` alternative of the plural pattern;
`acc` holds the (reversed) text before the current position. -/
def pluralScanAux : List Char → List Char → Option (List Char × List Char × List Char)
  | _, [] => none
  | acc, c :: rest =>
    if sep1 c then
      match rest with
      | j :: tail =>
        if j == jeem then
          match pluralTailMatch tail with
          | some (g, after) => some (acc.reverse, g, after)
          | none => pluralScanAux (c :: acc) rest
        else pluralScanAux (c :: acc) rest
      | [] => none
    else pluralScanAux (c :: acc) rest

/-- Leftmost match of the full plural pattern `(^|[\s؛،])ج\s*([...]+)`:
first the `^` alternative at position 0, then the scan. Returns
(text before the match, group 2, text after the match). -/
def pluralFind (s : List Char) : Option (List Char × List Char × List Char) :=
  match s with
  | [] => none
  | j :: tail =>
    if j == jeem then
      match pluralTailMatch tail with
      | some (g, after) => some ([], g, after)
      | none => pluralScanAux [] s
    else pluralScanAux [] s

/-- Python `re.split` on a single-character class: split, keeping empty
segments (the result list is always nonempty). -/
def splitChars (p : Char → Bool) : List Char → List (List Char)
  | [] => [[]]
  | c :: rest =>
    if p c then [] :: splitChars p rest
    else
      match splitChars p rest with
      | s :: ss => (c :: s) :: ss
      | [] => [[c]]

/-- Source `extract_plurals`: find the plural pattern, split group 2 on the
separators, keep stripped forms containing a Syriac character (whitespace
collapsed), and remove the whole matched span from the text. -/
def extract_plurals (text : List Char) : List (List Char) × List Char :=
  match pluralFind text with
  | none => ([], text)
  | some (before, g, after) =>
    let forms := (splitChars sep2 g).filterMap (fun f =>
      let f1 := pyStrip f
      if f1.any isSyriac then
        let f2 := collapseWS f1
        if f2.isEmpty then none else some f2
      else none)
    (forms, pyStrip (before ++ after))

/-- Leftmost match of `/\s*([^/]+?)\s*/`: first slash having a later slash
with a nonempty interior in between. Returns (before, interior, after). -/
def slashScan : List Char → List Char → Option (List Char × List Char × List Char)
  | _, [] => none
  | acc, c :: rest =>
    if c == '/' then
      let interior := rest.takeWhile (fun d => d ≠ '/')
      match rest.dropWhile (fun d => d ≠ '/') with
      | _ :: after =>
        if interior.isEmpty then slashScan (c :: acc) rest
        else some (acc.reverse, interior, after)
      | [] => slashScan (c :: acc) rest
    else slashScan (c :: acc) rest

/-- Leftmost match of `\[\s*([^\]]+?)\s*\]` (structural part only). -/
def bracketScan : List Char → List Char → Option (List Char × List Char × List Char)
  | _, [] => none
  | acc, c :: rest =>
    if c == '[' then
      let interior := rest.takeWhile (fun d => d ≠ ']')
      match rest.dropWhile (fun d => d ≠ ']') with
      | _ :: after =>
        if interior.isEmpty then bracketScan (c :: acc) rest
        else some (acc.reverse, interior, after)
      | [] => bracketScan (c :: acc) rest
    else bracketScan (c :: acc) rest

/-- Continuation class of the fallback Latin/IPA run:
`[IPA_LATIN_RANGE\s.'ːˈˌ-]` (the three modifier letters are already inside
the IPA range). -/
def latinCont (c : Char) : Bool :=
  isIpaLatin c || isPySpace c || c == '.' || c.toNat == 0x27 || c == '-'

/-- Leftmost match of the fallback pattern `([IPA][latinCont]+)`. -/
def latinScan : List Char → List Char → Option (List Char × List Char × List Char)
  | _, [] => none
  | acc, c :: rest =>
    if isIpaLatin c then
      match rest with
      | c2 :: _ =>
        if latinCont c2 then
          some (acc.reverse, c :: rest.takeWhile latinCont, rest.dropWhile latinCont)
        else latinScan (c :: acc) rest
      | [] => none
    else latinScan (c :: acc) rest

/-- Third tier of `extract_ipa`: the fallback Latin/IPA run. -/
def latinFallback (text : List Char) : Option (List Char) × List Char :=
  match latinScan [] text with
  | some (before, run, after) => (some (pyStrip run), pyStrip (before ++ after))
  | none => (none, text)

/-- Source `extract_ipa`: three-tier fallback (`/…/`, then `[…]` whose first
match must contain a Latin/IPA character, then a bare Latin/IPA run). -/
def extract_ipa (text : List Char) : Option (List Char) × List Char :=
  match slashScan [] text with
  | some (before, interior, after) => (some (pyStrip interior), pyStrip (before ++ after))
  | none =>
    match bracketScan [] text with
    | some (before, interior, after) =>
      if interior.any isIpaLatin then (some (pyStrip interior), pyStrip (before ++ after))
      else latinFallback text
    | none => latinFallback text

/-- The closed part-of-speech vocabulary of the source, in alternation
order. -/
def posTokens : List (List Char) :=
  [("اسم" : String).toList, ("فعل" : String).toList, ("صفة" : String).toList,
   ("حال" : String).toList, ("حرف" : String).toList, ("ضمير" : String).toList,
   ("عدد" : String).toList, ("ظرف" : String).toList, ("مصدر" : String).toList]

/-- If `t` is a literal prefix of `l`, return the remainder. -/
def chopTok : List Char → List Char → Option (List Char)
  | [], l => some l
  | _ :: _, [] => none
  | t :: ts, c :: l => if c == t then chopTok ts l else none

/-- Try each token of the alternation at the current position, requiring the
trailing `(?!\S)` lookahead. -/
def tokenAt : List (List Char) → List Char → Option (List Char × List Char)
  | [], _ => none
  | t :: ts, l =>
    match chopTok t l with
    | some after =>
      match after with
      | [] => some (t, after)
      | c :: _ => if isPySpace c then some (t, after) else tokenAt ts l
    | none => tokenAt ts l

/-- Leftmost standalone-token search; `prevOk` is the `(?<!\S)` lookbehind
state (true at the start of the text or after whitespace). -/
def posScan : Bool → List Char → List Char → Option (List Char × List Char × List Char)
  | _, _, [] => none
  | prevOk, acc, c :: rest =>
    if prevOk then
      match tokenAt posTokens (c :: rest) with
      | some (t, after) => some (acc.reverse, t, after)
      | none => posScan (isPySpace c) (c :: acc) rest
    else posScan (isPySpace c) (c :: acc) rest

/-- Source `extract_pos`. -/
def extract_pos (text : List Char) : Option (List Char) × List Char :=
  match posScan true [] text with
  | some (before, t, after) => (some t, pyStrip (before ++ after))
  | none => (none, text)

/-- Continuation class of `RE_SYRIAC_RUN`: Syriac block, whitespace, and the
literal extras of the source pattern (dot, dash, U+0308, U+00B7, U+1D52,
U+02BE, U+02BF; the other literals are inside the Syriac block). -/
def lemmaCont (c : Char) : Bool :=
  isSyriac c || isPySpace c || c == '.' || c == '-' || c.toNat == 0x0308 ||
  c.toNat == 0xB7 || c.toNat == 0x1D52 || c.toNat == 0x2BE || c.toNat == 0x2BF

/-- Leftmost match of `RE_SYRIAC_RUN` (a Syriac character followed by one or
more continuation characters, greedy). -/
def lemmaScan : List Char → List Char → Option (List Char × List Char × List Char)
  | _, [] => none
  | acc, c :: rest =>
    if isSyriac c then
      match rest with
      | c2 :: _ =>
        if lemmaCont c2 then
          some (acc.reverse, c :: rest.takeWhile lemmaCont, rest.dropWhile lemmaCont)
        else lemmaScan (c :: acc) rest
      | [] => none
    else lemmaScan (c :: acc) rest

/-- Source `extract_lemma`. -/
def extract_lemma (text : List Char) : Option (List Char) × List Char :=
  match lemmaScan [] text with
  | some (before, run, after) =>
    (some (collapseWS (pyStrip run)), pyStrip (before ++ after))
  | none => (none, text)

/-- Opening bracket class of the note pattern: `(`, `[`, `«`. -/
def isOpener (c : Char) : Bool := c == '(' || c == '[' || c.toNat == 0xAB

/-- Closing bracket class of the note pattern: `)`, `]`, `»`. -/
def isCloser (c : Char) : Bool := c == ')' || c == ']' || c.toNat == 0xBB

/-- Leftmost match of `[([«]\s*([^)\]»]+?)\s*[)\]»]`. -/
def noteScan : List Char → List Char → Option (List Char × List Char × List Char)
  | _, [] => none
  | acc, c :: rest =>
    if isOpener c then
      let interior := rest.takeWhile (fun d => !isCloser d)
      match rest.dropWhile (fun d => !isCloser d) with
      | _ :: after =>
        if interior.isEmpty then noteScan (c :: acc) rest
        else some (acc.reverse, interior, after)
      | [] => noteScan (c :: acc) rest
    else noteScan (c :: acc) rest

/-- The repeated removal loop of `extract_notes`; each iteration removes at
least three characters, so the input length is always enough fuel. -/
def notesLoop : Nat → List Char → List (List Char) → List (List Char) × List Char
  | 0, t, acc => (acc.reverse, t)
  | fuel+1, t, acc =>
    match noteScan [] t with
    | none => (acc.reverse, t)
    | some (before, interior, after) =>
      let note := pyStrip interior
      let t2 := pyStrip (before ++ after)
      notesLoop fuel t2 (if note.isEmpty then acc else note :: acc)

/-- Source `extract_notes`. -/
def extract_notes (text : List Char) : List (List Char) × List Char :=
  notesLoop text.length text []

/-- Primary sense separators `[/؛;]`. -/
def isPrimSep (c : Char) : Bool := c == '/' || c.toNat == 0x061B || c == ';'

/-- Source `split_primary_senses`: split, strip, keep nonempty segments that
contain an Arabic character. -/
def split_primary_senses (text : List Char) : List (List Char) :=
  ((splitChars isPrimSep text).map pyStrip).filter
    (fun p => !p.isEmpty && p.any isArabicChar)

/-- Source `split_synonyms`: split the sense on periods; the first nonempty
stripped segment is the main gloss, the rest are synonyms. -/
def split_synonyms (sense : List Char) : List Char × List (List Char) :=
  match ((splitChars (fun c => c == '.') sense).map pyStrip).filter
      (fun s => !s.isEmpty) with
  | [] => (sense, [])
  | [m] => (m, [])
  | m :: syns => (m, syns)

/-- One sense: a main gloss and its synonyms (source key names `gloss` and
`synonyms`). -/
structure Sense where
  gloss : List Char
  synonyms : List (List Char)
deriving DecidableEq

/-- The loop body of `build_senses` over the primary segments, producing the
sense list and the linear (flattened) gloss list in step. -/
def build_senses_list : List (List Char) → List Sense × List (List Char)
  | [] => ([], [])
  | p :: ps =>
    let ms := split_synonyms p
    let rest := build_senses_list ps
    (⟨ms.1, ms.2⟩ :: rest.1, (ms.1 :: ms.2) ++ rest.2)

/-- Source `build_senses`. -/
def build_senses (gloss_text : List Char) : List Sense × List (List Char) :=
  build_senses_list (split_primary_senses gloss_text)

/-- The typed attribute bag of an entry (source dict keys of `attributes`).
Boolean fields model the Python keys that are only ever set to `True`;
absence of the key is `false`. -/
structure Attributes where
  gender : Option (List Char) := none
  agent : Bool := false
  domain : List (List Char) := []
  tradition : Option (List Char) := none
  cuneiform : Bool := false
  phoneticChange : Bool := false
  sameMeaningAsPrevious : Bool := false
  pluralIndicator : Bool := false
  foreign : Bool := false
deriving DecidableEq

/-- Append a domain value if it is not already present (source dedup). -/
def addDomain (a : Attributes) (v : List Char) : Attributes :=
  if v ∈ a.domain then a else { a with domain := a.domain ++ [v] }

/-- The `PAREN_MARKERS` loop of `extract_parenthetical_markers`, processing
notes in order; unrecognized notes are kept verbatim. -/
def applyMarkers : List (List Char) → Attributes → List (List Char) → Attributes × List (List Char)
  | [], a, keep => (a, keep.reverse)
  | n :: ns, a, keep =>
    let token := pyStrip n
    if token = ("ث" : String).toList then
      applyMarkers ns { a with gender := some (("f" : String).toList) } keep
    else if token = ("ذ" : String).toList then
      applyMarkers ns { a with gender := some (("m" : String).toList) } keep
    else if token = ("ذ.ث" : String).toList then
      applyMarkers ns { a with gender := some (("mf" : String).toList) } keep
    else if token = ("فا" : String).toList then
      applyMarkers ns { a with agent := true } keep
    else if token = ("نحو" : String).toList then
      applyMarkers ns (addDomain a (("linguistic" : String).toList)) keep
    else if token = ("ܪܘ" : String).toList then
      applyMarkers ns { a with tradition := some (("ancientSong" : String).toList) } keep
    else if token = ("ح" : String).toList then
      applyMarkers ns (addDomain a (("animal" : String).toList)) keep
    else if token = ("نب" : String).toList then
      applyMarkers ns (addDomain a (("plant" : String).toList)) keep
    else if token = ("ط" : String).toList then
      applyMarkers ns (addDomain a (("bird" : String).toList)) keep
    else if token = ("أ. م" : String).toList then
      applyMarkers ns { a with cuneiform := true } keep
    else if token = ("ص" : String).toList then
      applyMarkers ns { a with phoneticChange := true } keep
    else if token = ("مثله" : String).toList then
      applyMarkers ns { a with sameMeaningAsPrevious := true } keep
    else if token = ("ج" : String).toList then
      applyMarkers ns { a with pluralIndicator := true } keep
    else applyMarkers ns a (n :: keep)

/-- Source `extract_parenthetical_markers`. -/
def extract_parenthetical_markers (notes : List (List Char)) :
    Attributes × List (List Char) :=
  applyMarkers notes {} []

/-- The `metadata` dict of an entry; `mtype` models the Python key
`"type"`, and `inheritedFrom` distinguishes key-absent (`none`) from
key-present-with-value-`None` (`some none`). -/
structure Metadata where
  source : Option (List Char) := none
  index : Option Nat := none
  parent : Option (List Char) := none
  subindex : Option Nat := none
  mtype : Option (List Char) := none
  inheritedFrom : Option (Option (List Char)) := none
deriving DecidableEq

/-- A lexical entry (the Python output dict); `lemmaStr` models the source
key `lemma`, which is a reserved word in Lean. -/
structure Entry where
  id : Option (List Char) := none
  lemmaStr : Option (List Char) := none
  ipa : Option (List Char) := none
  pos : Option (List Char) := none
  plurals : List (List Char) := []
  glosses : List (List Char) := []
  senses : List Sense := []
  notes : List (List Char) := []
  attributes : Attributes := {}
  subentries : List Entry := []
  metadata : Metadata := {}

instance : Inhabited Entry := ⟨{ subentries := [] }⟩

/-- The sense-building step of `parse_entry_text`: build senses only when a
gloss residual remains. -/
def sensesOf (gloss_text : List Char) : List Sense × List (List Char) :=
  if gloss_text.isEmpty then (([], []) : List Sense × List (List Char))
  else build_senses gloss_text

/-- The phrase-type inference of `parse_entry_text`: a `type = "phrase"`
metadata marker exactly when no lemma was found and a gloss exists. -/
def metadataOf (lm : Option (List Char)) (lin : List (List Char)) : Metadata :=
  if lm.isNone && !lin.isEmpty then { mtype := some (("phrase" : String).toList) }
  else {}

/-- Source `parse_entry_text` (the call sites always leave
`infer_phrase_type` at its default `True`, which is modelled here). -/
def parse_entry_text (raw : List Char) : Entry :=
  let text0 := normalize_text raw
  let foreignFlag := text0.head? == some '*'
  let text1 :=
    if foreignFlag then (text0.dropWhile (fun c => c == '*')).dropWhile isPySpace
    else text0
  let pr := extract_plurals text1
  let ip := extract_ipa pr.2
  let po := extract_pos ip.2
  let lm := extract_lemma po.2
  let nt := extract_notes lm.2
  let sl := sensesOf (pyStrip nt.2)
  let am := extract_parenthetical_markers nt.1
  { id := none
    lemmaStr := lm.1
    ipa := ip.1
    pos := po.1
    plurals := pr.1
    glosses := sl.2
    senses := sl.1
    notes := am.2
    attributes := if foreignFlag then { am.1 with foreign := true } else am.1
    subentries := []
    metadata := metadataOf lm.1 sl.2 }

/-- A paragraph record as exposed by the document collaborator: its text and
its list-item flag. -/
structure Paragraph where
  text : List Char
  isListItem : Bool

/-- Append a parsed subentry line to the current entry (source line
`last_entry.setdefault("subentries", []).append(sub)`). -/
def attachSub (e : Entry) (text : List Char) : Entry :=
  { e with subentries := e.subentries ++ [parse_entry_text (strip_subentry_marker text)] }

/-- Top-level gloss inheritance performed inside the parse loop.  Note that
`prev.id` is still unassigned (`none`) at this point, so the recorded
`inheritedFrom` value is the Python `None`. -/
def inheritTop (e : Entry) (prev : Entry) : Entry :=
  if e.attributes.sameMeaningAsPrevious && e.senses.isEmpty then
    { e with senses := prev.senses, glosses := prev.glosses,
             metadata := { e.metadata with inheritedFrom := some prev.id } }
  else e

/-- The paragraph loop of `parse_document`; the accumulator holds the
entries so far in reverse order, its head being both `last_entry` and
`prev_non_sub_entry` (the source keeps those two references equal). -/
def parseLoop : List Paragraph → List Entry → List Entry
  | [], acc => acc.reverse
  | p :: ps, acc =>
    let text := normalize_text p.text
    if text.isEmpty then parseLoop ps acc
    else if is_subentry_line text then
      match acc with
      | [] => parseLoop ps acc
      | e :: rest => parseLoop ps (attachSub e text :: rest)
    else if p.isListItem then
      let entry := parse_entry_text text
      let entry2 := match acc with
        | [] => entry
        | prev :: _ => inheritTop entry prev
      parseLoop ps (entry2 :: acc)
    else parseLoop ps acc

/-- Python `f"{i:04d}"`: decimal digits left-padded with zeros to width four. -/
def pad4 (n : Nat) : List Char :=
  let d := Nat.toDigits 10 n
  List.replicate (4 - d.length) '0' ++ d

/-- The id of the i-th (1-based) top-level entry: `{base}:{i:04d}`. -/
def topIdOf (base : List Char) (i : Nat) : List Char := base ++ ':' :: pad4 i

/-- The id of the j-th (1-based) subentry of the i-th top-level entry:
`{parentId}-{j}`. -/
def subIdOf (base : List Char) (i j : Nat) : List Char :=
  topIdOf base i ++ '-' :: Nat.toDigits 10 j

/-- The body of the subentry id post-pass for the j-th (1-based) subentry:
stamp id and metadata, then apply the subentry gloss-inheritance rule
against the parent's senses/glosses. -/
def subStamp (eid src : List Char) (pSenses : List Sense)
    (pGlosses : List (List Char)) (j : Nat) (s : Entry) : Entry :=
  let s1 := { s with
    id := some (eid ++ '-' :: Nat.toDigits 10 j),
    metadata := { s.metadata with
      source := some src, parent := some eid, subindex := some j } }
  if s1.attributes.sameMeaningAsPrevious && s1.senses.isEmpty && !pSenses.isEmpty then
    { s1 with senses := pSenses, glosses := pGlosses,
              metadata := { s1.metadata with inheritedFrom := some (some eid) } }
  else s1

/-- The inner loop of the id post-pass over a parent's subentries. -/
def assignSubIds (eid src : List Char) (pSenses : List Sense)
    (pGlosses : List (List Char)) : Nat → List Entry → List Entry
  | _, [] => []
  | j, s :: rest =>
    subStamp eid src pSenses pGlosses j s ::
      assignSubIds eid src pSenses pGlosses (j+1) rest

/-- The body of the top-level id post-pass for the i-th (1-based) entry. -/
def topStamp (base src : List Char) (i : Nat) (e : Entry) : Entry :=
  { e with
    id := some (topIdOf base i),
    metadata := { e.metadata with source := some src, index := some i },
    subentries := assignSubIds (topIdOf base i) src e.senses e.glosses 1 e.subentries }

/-- The id post-pass of `parse_document` over the finished entry list. -/
def assignIds (base src : List Char) : Nat → List Entry → List Entry
  | _, [] => []
  | i, e :: rest => topStamp base src i e :: assignIds base src (i+1) rest

/-- Source `parse_document`, over the paragraph sequence of the document;
`base` is the input file's base name without extension and `src` its base
name. -/
def parse_document (base src : List Char) (paras : List Paragraph) : List Entry :=
  assignIds base src 1 (parseLoop paras [])

/-! Canonical-form predicates used to state the normalizer's guarantees. -/

/-- The first character, when present, is not Python whitespace. -/
def headNotWS (l : List Char) : Bool :=
  match l.head? with
  | some c => !isPySpace c
  | none => true

/-- The last character, when present, is not Python whitespace. -/
def lastNotWS (l : List Char) : Bool :=
  match l.getLast? with
  | some c => !isPySpace c
  | none => true

/-- No two adjacent characters are both Python whitespace. -/
def noDblWS : List Char → Bool
  | [] => true
  | [_] => true
  | c :: c2 :: rest => !(isPySpace c && isPySpace c2) && noDblWS (c2 :: rest)

theorem pyStrip_eq (l : List Char) :
    pyStrip l = (l.dropWhile isPySpace).rdropWhile isPySpace := rfl

theorem headNotWS_of (l : List Char)
    (h : ∀ c, l.head? = some c → isPySpace c = false) : headNotWS l = true := by
  unfold headNotWS
  cases hg : l.head? with
  | none => rfl
  | some c => simp [h c hg]

theorem headNotWS_sound (l : List Char) (c : Char) (h : headNotWS l = true)
    (hc : l.head? = some c) : isPySpace c = false := by
  unfold headNotWS at h
  rw [hc] at h
  simpa using h

theorem lastNotWS_of (l : List Char)
    (h : ∀ c, l.getLast? = some c → isPySpace c = false) : lastNotWS l = true := by
  unfold lastNotWS
  cases hg : l.getLast? with
  | none => rfl
  | some c => simp [h c hg]

theorem lastNotWS_sound (l : List Char) (c : Char) (h : lastNotWS l = true)
    (hc : l.getLast? = some c) : isPySpace c = false := by
  unfold lastNotWS at h
  rw [hc] at h
  simpa using h

theorem pyStrip_headNotWS (l : List Char) : headNotWS (pyStrip l) = true := by
  apply headNotWS_of
  intro c hc
  have hpre : pyStrip l <+: l.dropWhile isPySpace := by
    rw [pyStrip_eq]; exact List.rdropWhile_prefix _ _
  obtain ⟨t2, ht2⟩ := hpre
  rcases h : pyStrip l with _ | ⟨c0, t⟩
  · rw [h] at hc; simp at hc
  · rw [h] at hc ht2
    have hh : (l.dropWhile isPySpace).head? = some c := by
      rw [← ht2]
      simp at hc
      simp [hc]
    have := List.head?_dropWhile_not isPySpace l
    rw [hh] at this
    exact this

theorem pyStrip_lastNotWS (l : List Char) : lastNotWS (pyStrip l) = true := by
  apply lastNotWS_of
  intro c hc
  have hne2 : (l.dropWhile isPySpace).rdropWhile isPySpace ≠ [] := by
    rw [← pyStrip_eq]
    intro hnil
    rw [hnil] at hc
    simp at hc
  have hlast := List.rdropWhile_last_not isPySpace (l.dropWhile isPySpace) hne2
  have hg : (pyStrip l).getLast? =
      some (((l.dropWhile isPySpace).rdropWhile isPySpace).getLast hne2) :=
    List.getLast?_eq_getLast ((l.dropWhile isPySpace).rdropWhile isPySpace) hne2
  have hcx : c = ((l.dropWhile isPySpace).rdropWhile isPySpace).getLast hne2 :=
    Option.some.inj (hc.symm.trans hg)
  rw [hcx]
  simpa using hlast

theorem pyStrip_eq_self (l : List Char) (h1 : headNotWS l = true)
    (h2 : lastNotWS l = true) : pyStrip l = l := by
  have hd : l.dropWhile isPySpace = l := by
    rcases l with _ | ⟨c, t⟩
    · rfl
    · have : isPySpace c = false := headNotWS_sound _ c h1 rfl
      simp [List.dropWhile_cons, this]
  rw [pyStrip_eq, hd]
  rw [List.rdropWhile_eq_self_iff]
  intro hl
  have hg : l.getLast? = some (l.getLast hl) := List.getLast?_eq_getLast _ hl
  simp [lastNotWS_sound l _ h2 hg]

theorem mem_pyStrip (l : List Char) (c : Char) (h : c ∈ pyStrip l) : c ∈ l := by
  have hpre : pyStrip l <+: l.dropWhile isPySpace := by
    rw [pyStrip_eq]; exact List.rdropWhile_prefix _ _
  exact (List.dropWhile_sublist isPySpace).mem (hpre.sublist.mem h)

/-! Structural facts about `collapseWS`. -/

theorem collapseWS_cons_cons_ws (rest : List Char) : ∀ c c2 : Char,
    isPySpace c = true → isPySpace c2 = true →
    collapseWS (c :: c2 :: rest) = ' ' :: collapseWS (rest.dropWhile isPySpace) := by
  induction rest with
  | nil =>
    intro c c2 h1 h2
    simp [collapseWS, h1, h2]
  | cons c3 r2 ih =>
    intro c c2 h1 h2
    by_cases h3 : isPySpace c3 = true
    · have step : collapseWS (c :: c2 :: c3 :: r2) =
          ' ' :: (collapseWS (c2 :: c3 :: r2)).tail := by
        simp [collapseWS, h1, h2]
      rw [step, ih c2 c3 h2 h3]
      simp [List.dropWhile_cons, h3]
    · have h3f : isPySpace c3 = false := by simpa using h3
      have step : collapseWS (c :: c2 :: c3 :: r2) =
          ' ' :: (collapseWS (c2 :: c3 :: r2)).tail := by
        simp [collapseWS, h1, h2]
      have step2 : collapseWS (c2 :: c3 :: r2) = c2 :: collapseWS (c3 :: r2) := by
        simp [collapseWS, h3f]
      rw [step, step2]
      simp [List.dropWhile_cons, h3f]

theorem collapseWS_cons_other (c c2 : Char) (rest : List Char)
    (h : (isPySpace c && isPySpace c2) = false) :
    collapseWS (c :: c2 :: rest) = c :: collapseWS (c2 :: rest) := by
  simp [collapseWS, h]

theorem collapseWS_ne_nil (c : Char) (l : List Char) : collapseWS (c :: l) ≠ [] := by
  rcases l with _ | ⟨c2, r⟩
  · simp [collapseWS]
  · by_cases h : (isPySpace c && isPySpace c2) = true
    · simp [collapseWS, h]
    · rw [collapseWS_cons_other c c2 r (by simpa using h)]
      simp

theorem collapseWS_head? (c : Char) (l : List Char) :
    (collapseWS (c :: l)).head? = some c ∨
    (isPySpace c = true ∧ (collapseWS (c :: l)).head? = some ' ') := by
  rcases l with _ | ⟨c2, r⟩
  · left; rfl
  · by_cases h : (isPySpace c && isPySpace c2) = true
    · right
      refine ⟨(Bool.and_eq_true _ _).mp h |>.1, ?_⟩
      rw [collapseWS_cons_cons_ws r c c2 ((Bool.and_eq_true _ _).mp h).1
        ((Bool.and_eq_true _ _).mp h).2]
      rfl
    · left
      rw [collapseWS_cons_other c c2 r (by simpa using h)]
      rfl

theorem noDblWS_cons_cons (c c2 : Char) (rest : List Char) :
    noDblWS (c :: c2 :: rest) = (!(isPySpace c && isPySpace c2) && noDblWS (c2 :: rest)) := rfl

theorem collapseWS_noDbl (l : List Char) : noDblWS (collapseWS l) = true := by
  match l with
  | [] => rfl
  | [c] => rfl
  | c :: c2 :: rest =>
    by_cases h : (isPySpace c && isPySpace c2) = true
    · obtain ⟨h1, h2⟩ := (Bool.and_eq_true _ _).mp h
      rw [collapseWS_cons_cons_ws rest c c2 h1 h2]
      have ih := collapseWS_noDbl (rest.dropWhile isPySpace)
      rcases hdw : rest.dropWhile isPySpace with _ | ⟨d, r0⟩
      · rfl
      · have hds : isPySpace d = false := by
          have hx := List.head?_dropWhile_not isPySpace rest
          rw [hdw] at hx
          exact hx
        rw [hdw] at ih
        have hh := collapseWS_head? d r0
        rcases hcc : collapseWS (d :: r0) with _ | ⟨e, t⟩
        · rfl
        · rw [hcc] at ih hh
          have he : e = d := by
            rcases hh with hh | ⟨hws2, hh⟩
            · exact Option.some.inj hh
            · rw [hds] at hws2; exact absurd hws2 (by simp)
          have hse : isPySpace e = false := by rw [he]; exact hds
          rw [noDblWS_cons_cons, hse]
          simpa using ih
    · have hf : (isPySpace c && isPySpace c2) = false := by
        cases hx : (isPySpace c && isPySpace c2) with
        | false => rfl
        | true => exact absurd hx h
      rw [collapseWS_cons_other c c2 rest hf]
      have ih := collapseWS_noDbl (c2 :: rest)
      have hh := collapseWS_head? c2 rest
      rcases hcc : collapseWS (c2 :: rest) with _ | ⟨e, t⟩
      · exact absurd hcc (collapseWS_ne_nil c2 rest)
      · rw [hcc] at ih hh
        have hnd : (isPySpace c && isPySpace e) = false := by
          rcases hh with hh | ⟨hws2, hh⟩
          · have he : e = c2 := Option.some.inj hh
            rw [he]; exact hf
          · have hwc : isPySpace c = false := by
              cases hxc : isPySpace c with
              | false => rfl
              | true => rw [hxc, hws2] at hf; simp at hf
            rw [hwc]; rfl
        rw [noDblWS_cons_cons, hnd]
        simpa using ih
termination_by l.length
decreasing_by
  · have hle : (List.dropWhile isPySpace rest).length ≤ rest.length :=
      (List.dropWhile_sublist _).length_le
    simp only [List.length_cons]
    omega
  · simp [List.length_cons]

theorem collapseWS_eq_self (l : List Char) (h : noDblWS l = true) :
    collapseWS l = l := by
  match l with
  | [] => rfl
  | [c] => rfl
  | c :: c2 :: rest =>
    rw [noDblWS_cons_cons] at h
    obtain ⟨h1, h2⟩ := (Bool.and_eq_true _ _).mp h
    have h1f : (isPySpace c && isPySpace c2) = false := by
      cases hx : (isPySpace c && isPySpace c2) with
      | false => rfl
      | true => rw [hx] at h1; simp at h1
    rw [collapseWS_cons_other c c2 rest h1f]
    rw [collapseWS_eq_self (c2 :: rest) h2]

theorem mem_collapseWS (l : List Char) (c : Char) (h : c ∈ collapseWS l) :
    c ∈ l ∨ c = ' ' := by
  match l with
  | [] => simp [collapseWS] at h
  | [d] =>
    simp [collapseWS] at h
    simp [h]
  | d :: d2 :: rest =>
    by_cases hws : (isPySpace d && isPySpace d2) = true
    · obtain ⟨hw1, hw2⟩ := (Bool.and_eq_true _ _).mp hws
      rw [collapseWS_cons_cons_ws rest d d2 hw1 hw2] at h
      rcases List.mem_cons.mp h with h | h
      · right; exact h
      · rcases mem_collapseWS (rest.dropWhile isPySpace) c h with h | h
        · left
          have hsub : List.Sublist (List.dropWhile isPySpace rest) rest :=
            List.dropWhile_sublist _
          have := hsub.mem h
          simp [this]
        · right; exact h
    · have hf : (isPySpace d && isPySpace d2) = false := by
        cases hx : (isPySpace d && isPySpace d2) with
        | false => rfl
        | true => exact absurd hx hws
      rw [collapseWS_cons_other d d2 rest hf] at h
      rcases List.mem_cons.mp h with h | h
      · left; simp [h]
      · rcases mem_collapseWS (d2 :: rest) c h with h | h
        · left; simp [List.mem_cons.mp h]
        · right; exact h
termination_by l.length
decreasing_by
  · have hle : (List.dropWhile isPySpace rest).length ≤ rest.length :=
      (List.dropWhile_sublist _).length_le
    simp only [List.length_cons]
    omega
  · simp [List.length_cons]

theorem collapseWS_headNotWS (l : List Char) (h : headNotWS l = true) :
    headNotWS (collapseWS l) = true := by
  rcases l with _ | ⟨c, t⟩
  · exact h
  · have hc : isPySpace c = false := headNotWS_sound _ c h rfl
    apply headNotWS_of
    intro e he
    rcases collapseWS_head? c t with hh | ⟨hws, hh⟩
    · have : e = c := Option.some.inj (he.symm.trans hh)
      rw [this]; exact hc
    · rw [hc] at hws; simp at hws

theorem lastNotWS_cons_of (x : Char) (t : List Char) (ht : t ≠ [])
    (h : lastNotWS t = true) : lastNotWS (x :: t) = true := by
  rcases t with _ | ⟨f, t2⟩
  · exact absurd rfl ht
  · apply lastNotWS_of
    intro e he
    rw [List.getLast?_cons_cons] at he
    exact lastNotWS_sound _ e h he

theorem collapseWS_lastNotWS (l : List Char) (h : lastNotWS l = true) :
    lastNotWS (collapseWS l) = true := by
  match l with
  | [] => exact h
  | [c] => exact h
  | [c, c2] =>
    by_cases hws : (isPySpace c && isPySpace c2) = true
    · exfalso
      have hx := lastNotWS_sound [c, c2] c2 h rfl
      rw [((Bool.and_eq_true _ _).mp hws).2] at hx
      simp at hx
    · have hf : (isPySpace c && isPySpace c2) = false := by
        cases hx : (isPySpace c && isPySpace c2) with
        | false => rfl
        | true => exact absurd hx hws
      rw [collapseWS_cons_other c c2 [] hf]
      have htail : lastNotWS [c2] = true := by
        apply lastNotWS_of
        intro e he
        apply lastNotWS_sound _ e h
        rw [List.getLast?_cons_cons]
        exact he
      exact lastNotWS_cons_of c _ (collapseWS_ne_nil c2 [])
        (collapseWS_lastNotWS [c2] htail)
  | c :: c2 :: c3 :: r2 =>
    by_cases hws : (isPySpace c && isPySpace c2) = true
    · obtain ⟨hw1, hw2⟩ := (Bool.and_eq_true _ _).mp hws
      rw [collapseWS_cons_cons_ws (c3 :: r2) c c2 hw1 hw2]
      have hlr : lastNotWS (c3 :: r2) = true := by
        apply lastNotWS_of
        intro e he
        apply lastNotWS_sound _ e h
        rw [List.getLast?_cons_cons, List.getLast?_cons_cons]
        exact he
      have hrne : (c3 :: r2 : List Char) ≠ [] := by simp
      have hdwne : (c3 :: r2).dropWhile isPySpace ≠ [] := by
        intro hnil
        have hall := List.dropWhile_eq_nil_iff.mp hnil
        have hmem := List.getLast_mem hrne
        have hws2 := hall _ hmem
        have hnw := lastNotWS_sound (c3 :: r2) ((c3 :: r2).getLast hrne) hlr
          (List.getLast?_eq_getLast _ hrne)
        rw [hnw] at hws2
        simp at hws2
      have hsuffix : ((c3 :: r2).dropWhile isPySpace) <:+ (c3 :: r2) :=
        List.dropWhile_suffix _
      obtain ⟨pre, hpre⟩ := hsuffix
      have hglast : ((c3 :: r2).dropWhile isPySpace).getLast? = (c3 :: r2).getLast? := by
        conv_rhs => rw [← hpre]
        rw [List.getLast?_append]
        rcases hLg : ((c3 :: r2).dropWhile isPySpace).getLast? with _ | e
        · exact absurd (List.getLast?_eq_none_iff.mp hLg) hdwne
        · rfl
      have hlastdw : lastNotWS ((c3 :: r2).dropWhile isPySpace) = true := by
        apply lastNotWS_of
        intro e he
        exact lastNotWS_sound (c3 :: r2) e hlr (by rw [← hglast]; exact he)
      rcases hdw2 : (c3 :: r2).dropWhile isPySpace with _ | ⟨d, r0⟩
      · exact absurd hdw2 hdwne
      · rw [hdw2] at hlastdw
        exact lastNotWS_cons_of ' ' _ (collapseWS_ne_nil d r0)
          (collapseWS_lastNotWS (d :: r0) hlastdw)
    · have hf : (isPySpace c && isPySpace c2) = false := by
        cases hx : (isPySpace c && isPySpace c2) with
        | false => rfl
        | true => exact absurd hx hws
      rw [collapseWS_cons_other c c2 (c3 :: r2) hf]
      have htail : lastNotWS (c2 :: c3 :: r2) = true := by
        apply lastNotWS_of
        intro e he
        apply lastNotWS_sound _ e h
        rw [List.getLast?_cons_cons]
        exact he
      exact lastNotWS_cons_of c _ (collapseWS_ne_nil c2 (c3 :: r2))
        (collapseWS_lastNotWS (c2 :: c3 :: r2) htail)
termination_by l.length
decreasing_by
  · simp [List.length_cons]
  · have hle : (d :: r0).length ≤ (c3 :: r2).length := by
      rw [← hdw2]
      exact (List.dropWhile_sublist _).length_le
    simp only [List.length_cons] at hle ⊢
    omega
  · simp [List.length_cons]


theorem foldDash_foldDash (c : Char) : foldDash (foldDash c) = foldDash c := by
  cases hx : (c.toNat == 0x2013 || c.toNat == 0x2014) with
  | true =>
    have h1 : foldDash c = '-' := by unfold foldDash; rw [hx]; rfl
    rw [h1]
    decide
  | false =>
    have h1 : foldDash c = c := by unfold foldDash; rw [hx]; rfl
    rw [h1]
    exact h1

theorem normalize_text_chars (l : List Char) (c : Char)
    (h : c ∈ normalize_text l) : foldDash c = c ∧ isTatweel c = false := by
  unfold normalize_text at h
  rcases mem_collapseWS _ c h with h | h
  · have h2 := mem_pyStrip _ c h
    obtain ⟨h4, h5⟩ := List.mem_filter.mp h2
    obtain ⟨d, _, hdc⟩ := List.mem_map.mp h4
    constructor
    · rw [← hdc]; exact foldDash_foldDash d
    · simpa using h5
  · subst h
    constructor <;> decide

theorem normalize_text_headNotWS (l : List Char) :
    headNotWS (normalize_text l) = true := by
  unfold normalize_text
  exact collapseWS_headNotWS _ (pyStrip_headNotWS _)

theorem normalize_text_lastNotWS (l : List Char) :
    lastNotWS (normalize_text l) = true := by
  unfold normalize_text
  exact collapseWS_lastNotWS _ (pyStrip_lastNotWS _)

theorem normalize_text_noDbl (l : List Char) :
    noDblWS (normalize_text l) = true := by
  unfold normalize_text
  exact collapseWS_noDbl _

/-- C9: `normalize_text` is idempotent: normalizing already-normalized text
returns it unchanged. -/
theorem claim_C9 (l : List Char) :
    normalize_text (normalize_text l) = normalize_text l := by
  have hchars := normalize_text_chars l
  have hmap : (normalize_text l).map foldDash = normalize_text l := by
    have hall : ∀ a ∈ normalize_text l, foldDash a = a :=
      fun a ha => (hchars a ha).1
    exact (List.map_congr_left hall).trans (List.map_id' _)
  have hfilter : (normalize_text l).filter (fun c => !isTatweel c) = normalize_text l := by
    apply List.filter_eq_self.mpr
    intro a ha
    simp [(hchars a ha).2]
  have hstrip : pyStrip (normalize_text l) = normalize_text l :=
    pyStrip_eq_self _ (normalize_text_headNotWS l) (normalize_text_lastNotWS l)
  have hcollapse : collapseWS (normalize_text l) = normalize_text l :=
    collapseWS_eq_self _ (normalize_text_noDbl l)
  show collapseWS (pyStrip (((normalize_text l).map foldDash).filter
    (fun c => !isTatweel c))) = normalize_text l
  rw [hmap, hfilter, hstrip, hcollapse]

/-- C4 (amended): `normalize_text` folds the dash variants and removes
tatweel (no such character survives in the output), trims both ends, and
leaves no run of two or more whitespace characters; the empty string maps to
itself.  (A lone non-space whitespace character between tokens is preserved,
which is what the amendment weakens relative to the original claim.) -/
theorem claim_C4_amended (l : List Char) :
    normalize_text [] = [] ∧
    (normalize_text l).all (fun c => (foldDash c == c) && !isTatweel c) = true ∧
    headNotWS (normalize_text l) = true ∧
    lastNotWS (normalize_text l) = true ∧
    noDblWS (normalize_text l) = true := by
  refine ⟨rfl, ?_, normalize_text_headNotWS l, normalize_text_lastNotWS l,
    normalize_text_noDbl l⟩
  rw [List.all_eq_true]
  intro c hc
  obtain ⟨h1, h2⟩ := normalize_text_chars l c hc
  simp [h1, h2]

/-- C4 counterexample: on input `"a\tb"` the normalizer returns the input
unchanged, so the output keeps an internal whitespace character (the tab)
that is not a single space — the claim that every internal whitespace run is
collapsed to one space fails for runs of length one. -/
theorem claim_C4_counterexample :
    normalize_text ['a', '\t', 'b'] = ['a', '\t', 'b'] ∧
    '\t' ∈ normalize_text ['a', '\t', 'b'] ∧
    isPySpace '\t' = true ∧ '\t' ≠ ' ' := by decide

/-- The list-item input text of the C1 scenario,
`"ج ܟܬ݂ܵܒ݂ܹ̇ܐ، ܟܬ݂ܵܒ݂ܘܵܬ݂ܵܐ ܟܵܬ݂ܵܒ݂ܵܐ ذكر"` (the first plural form carries the
combining dot U+0307). -/
def c1Input : List Char :=
  ("ج ܟܬ݂ܵܒ݂ܹ̇ܐ، ܟܬ݂ܵܒ݂ܘܵܬ݂ܵܐ ܟܵܬ݂ܵܒ݂ܵܐ ذكر" : String).toList

/-- The first plural form the claim expects, `"ܟܬ݂ܵܒ݂ܹ̇ܐ"`. -/
def c1SpecPlural1 : List Char :=
  ("ܟܬ݂ܵܒ݂ܹ̇ܐ" : String).toList

/-- The second plural form the claim expects, `"ܟܬ݂ܵܒ݂ܘܵܬ݂ܵܐ"`. -/
def c1SpecPlural2 : List Char :=
  ("ܟܬ݂ܵܒ݂ܘܵܬ݂ܵܐ" : String).toList

/-- The lemma the claim expects, `"ܟܵܬ݂ܵܒ݂ܵܐ"`. -/
def c1SpecLemma : List Char :=
  ("ܟܵܬ݂ܵܒ݂ܵܐ" : String).toList

/-- C1 counterexample: on the scenario input the parser neither produces the
expected lemma nor the expected two plural forms (the plural match stops at
the combining dot U+0307, which is outside the Syriac block, and the lemma
run then swallows the second plural form). -/
theorem claim_C1_counterexample :
    (parse_entry_text c1Input).lemmaStr ≠ some c1SpecLemma ∧
    (parse_entry_text c1Input).plurals ≠ [c1SpecPlural1, c1SpecPlural2] := by
  decide

/-- C1 (amended): on the scenario input the parser yields the single
truncated plural form `"ܟܬ݂ܵܒ݂ܹ"` (the match stops at U+0307), the lemma
`"ܟܬ݂ܵܒ݂ܘܵܬ݂ܵܐ ܟܵܬ݂ܵܒ݂ܵܐ"` (the rest of the second plural form merged with the
expected lemma across the space), the gloss residual `"̇ܐ، ذكر"`, and no
pronunciation or part of speech. -/
theorem claim_C1_amended :
    (parse_entry_text c1Input).plurals =
      [("ܟܬ݂ܵܒ݂ܹ" : String).toList] ∧
    (parse_entry_text c1Input).lemmaStr =
      some (("ܟܬ݂ܵܒ݂ܘܵܬ݂ܵܐ ܟܵܬ݂ܵܒ݂ܵܐ" : String).toList) ∧
    (parse_entry_text c1Input).glosses =
      [("̇ܐ، ذكر" : String).toList] ∧
    (parse_entry_text c1Input).ipa = none ∧
    (parse_entry_text c1Input).pos = none := by
  decide

/-- The gloss residual of the C6 scenario, `"كبير/عظيم. جليل؛ ضخم"`. -/
def c6Input : List Char :=
  ("كبير/عظيم. جليل؛ ضخم" : String).toList

/-- C6: sense building on the scenario residual yields exactly the three
senses of the claim, with `"جليل"` as the synonym of `"عظيم"`. -/
theorem claim_C6 :
    (build_senses c6Input).1 =
      [⟨("كبير" : String).toList, []⟩,
       ⟨("عظيم" : String).toList,
        [("جليل" : String).toList]⟩,
       ⟨("ضخم" : String).toList, []⟩] := by
  decide

/-- An input whose plural-introducer match captures only whitespace: the
introducer is followed by a space and a Latin letter. -/
def c10Input : List Char := ("ج a" : String).toList

/-- C10: `extract_plurals` can return an empty plural list while still
changing the text — the matched span (introducer plus the whitespace
captured by backtracking) is removed before the forms are validated as
Syriac. -/
theorem claim_C10 :
    (extract_plurals c10Input).1 = [] ∧
    (extract_plurals c10Input).2 = ['a'] ∧
    (extract_plurals c10Input).2 ≠ c10Input := by
  decide

/-- Base name of the two-paragraph inheritance document. -/
def c2Base : List Char := ("b" : String).toList

/-- Source file name of the two-paragraph inheritance document. -/
def c2Src : List Char := ("b.docm" : String).toList

/-- Top-level entry A of the inheritance scenario: list item `"كلمة"`. -/
def paraA : Paragraph := ⟨("كلمة" : String).toList, true⟩

/-- Entry B of the inheritance scenario: list item `"(مثله)"`. -/
def paraB : Paragraph := ⟨("(مثله)" : String).toList, true⟩

/-- The two-paragraph inheritance document. -/
def c2Doc : List Paragraph := [paraA, paraB]

/-- The assembled output of the inheritance document. -/
def c2Out : List Entry := parse_document c2Base c2Src c2Doc

/-- C2: in the inheritance scenario, B's `sameMeaningAsPrevious` attribute is
set and B's senses are copied from A as the claim says, but the recorded
`metadata.inheritedFrom` is the Python `None` (modelled `some none`) rather
than A's id `"b:0001"`, because ids are assigned only after the parse loop
while the inheritance metadata is recorded inside it. -/
theorem claim_C2 :
    c2Out.length = 2 ∧
    (c2Out.getD 1 default).attributes.sameMeaningAsPrevious = true ∧
    (c2Out.getD 1 default).senses = (c2Out.getD 0 default).senses ∧
    (c2Out.getD 0 default).senses =
      [⟨("كلمة" : String).toList, []⟩] ∧
    (c2Out.getD 0 default).id = some (topIdOf c2Base 1) ∧
    (c2Out.getD 1 default).metadata.inheritedFrom = some none := by
  decide

/-- C3 counterexample: entry B of the inheritance document ends with an
absent lemma and a non-empty (inherited) flattened gloss list, yet its
metadata carries no `type = "phrase"` marker — phrase inference runs before
gloss inheritance. -/
theorem claim_C3_counterexample :
    c2Out.length = 2 ∧
    (c2Out.getD 1 default).lemmaStr = none ∧
    (c2Out.getD 1 default).glosses ≠ [] ∧
    (c2Out.getD 1 default).metadata.mtype = none := by
  decide

/-- The linearization of a sense list: each main gloss followed by its
synonyms, in sense order. -/
def sensesLinear : List Sense → List (List Char)
  | [] => []
  | s :: rest => (s.gloss :: s.synonyms) ++ sensesLinear rest

theorem sensesLinear_length (ss : List Sense) :
    (sensesLinear ss).length = (ss.map (fun s => 1 + s.synonyms.length)).sum := by
  induction ss with
  | nil => rfl
  | cons s rest ih =>
    simp [sensesLinear, ih]
    omega

theorem build_senses_list_linear (ps : List (List Char)) :
    (build_senses_list ps).2 = sensesLinear (build_senses_list ps).1 := by
  induction ps with
  | nil => rfl
  | cons p rest ih =>
    simp [build_senses_list, sensesLinear, ih]

theorem sensesOf_linear (gt : List Char) :
    (sensesOf gt).2 = sensesLinear (sensesOf gt).1 := by
  unfold sensesOf
  split
  · rfl
  · exact build_senses_list_linear _

/-- The flat-gloss invariant of one entry: `glosses` is exactly the
linearization of `senses`. -/
def glossInv (e : Entry) : Prop := e.glosses = sensesLinear e.senses

set_option maxHeartbeats 2000000 in
theorem parse_entry_text_glossInv (raw : List Char) :
    glossInv (parse_entry_text raw) := sensesOf_linear _

theorem parse_entry_text_subentries (raw : List Char) :
    (parse_entry_text raw).subentries = [] := rfl

theorem parse_entry_text_id (raw : List Char) :
    (parse_entry_text raw).id = none := rfl

set_option maxHeartbeats 2000000 in
theorem parse_entry_text_metadata (raw : List Char) :
    (parse_entry_text raw).metadata =
      metadataOf (parse_entry_text raw).lemmaStr (parse_entry_text raw).glosses := rfl

theorem metadataOf_inheritedFrom (lm : Option (List Char))
    (lin : List (List Char)) : (metadataOf lm lin).inheritedFrom = none := by
  unfold metadataOf
  split
  · rfl
  · rfl

theorem metadataOf_mtype (lm : Option (List Char)) (lin : List (List Char))
    (h1 : lm = none) (h2 : lin ≠ []) :
    (metadataOf lm lin).mtype = some (("phrase" : String).toList) := by
  subst h1
  unfold metadataOf
  have hc : (Option.isNone (none : Option (List Char)) && !lin.isEmpty) = true := by
    rcases lin with _ | ⟨a, t⟩
    · exact absurd rfl h2
    · rfl
  rw [if_pos hc]

/-- Generic preservation along the parse loop: any per-entry property that
holds of freshly parsed entries and survives subentry attachment and
top-level inheritance holds of every entry the loop produces. -/
theorem parseLoop_invariant (P : Entry → Prop)
    (hparse : ∀ raw, P (parse_entry_text raw))
    (hattach : ∀ e t, P e → P (attachSub e t))
    (hinherit : ∀ e prev, P e → P prev → P (inheritTop e prev)) :
    ∀ (ps : List Paragraph) (acc : List Entry), (∀ e ∈ acc, P e) →
      ∀ e ∈ parseLoop ps acc, P e := by
  intro ps
  induction ps with
  | nil =>
    intro acc hacc e he
    rw [parseLoop] at he
    exact hacc e (List.mem_reverse.mp he)
  | cons p ps ih =>
    intro acc hacc e he
    simp only [parseLoop] at he
    by_cases h1 : (normalize_text p.text).isEmpty = true
    · simp only [h1, if_true] at he
      exact ih acc hacc e he
    · rw [Bool.not_eq_true] at h1
      simp only [h1, Bool.false_eq_true, if_false] at he
      by_cases h2 : is_subentry_line (normalize_text p.text) = true
      · simp only [h2, if_true] at he
        rcases acc with _ | ⟨a, rest⟩
        · exact ih [] (by intro x hx; cases hx) e he
        · apply ih _ ?_ e he
          intro x hx
          rcases List.mem_cons.mp hx with hx | hx
          · subst hx
            exact hattach a _ (hacc a (List.mem_cons_self _ _))
          · exact hacc x (List.mem_cons_of_mem _ hx)
      · rw [Bool.not_eq_true] at h2
        simp only [h2, Bool.false_eq_true, if_false] at he
        by_cases h3 : p.isListItem = true
        · simp only [h3, if_true] at he
          rcases acc with _ | ⟨prev, rest⟩
          · apply ih _ ?_ e he
            intro x hx
            rcases List.mem_cons.mp hx with hx | hx
            · subst hx; exact hparse _
            · cases hx
          · apply ih _ ?_ e he
            intro x hx
            rcases List.mem_cons.mp hx with hx | hx
            · subst hx
              exact hinherit _ _ (hparse _) (hacc prev (List.mem_cons_self _ _))
            · exact hacc x hx
        · rw [Bool.not_eq_true] at h3
          simp only [h3, Bool.false_eq_true, if_false] at he
          exact ih acc hacc e he

theorem assignSubIds_mem (eid src : List Char) (pS : List Sense)
    (pG : List (List Char)) :
    ∀ (subs : List Entry) (m : Nat) (s : Entry),
      s ∈ assignSubIds eid src pS pG m subs →
      ∃ s0, s0 ∈ subs ∧ ∃ j, s = subStamp eid src pS pG j s0 := by
  intro subs
  induction subs with
  | nil =>
    intro m s hs
    simp only [assignSubIds] at hs
    cases hs
  | cons a rest ih =>
    intro m s hs
    simp only [assignSubIds] at hs
    rcases List.mem_cons.mp hs with hs | hs
    · exact ⟨a, List.mem_cons_self _ _, m, hs⟩
    · obtain ⟨s0, hs0, j, hj⟩ := ih (m+1) s hs
      exact ⟨s0, List.mem_cons_of_mem _ hs0, j, hj⟩

theorem assignIds_mem (base src : List Char) :
    ∀ (l : List Entry) (k : Nat) (e : Entry), e ∈ assignIds base src k l →
      ∃ e0, e0 ∈ l ∧ ∃ i, e = topStamp base src i e0 := by
  intro l
  induction l with
  | nil =>
    intro k e he
    simp only [assignIds] at he
    cases he
  | cons a rest ih =>
    intro k e he
    simp only [assignIds] at he
    rcases List.mem_cons.mp he with he | he
    · exact ⟨a, List.mem_cons_self _ _, k, he⟩
    · obtain ⟨e0, he0, i, hi⟩ := ih (k+1) e he
      exact ⟨e0, List.mem_cons_of_mem _ he0, i, hi⟩

theorem subStamp_spec (eid src : List Char) (pS : List Sense)
    (pG : List (List Char)) (j : Nat) (s : Entry) :
    (subStamp eid src pS pG j s).lemmaStr = s.lemmaStr ∧
    (subStamp eid src pS pG j s).metadata.mtype = s.metadata.mtype ∧
    (subStamp eid src pS pG j s).id = some (eid ++ '-' :: Nat.toDigits 10 j) ∧
    (((subStamp eid src pS pG j s).senses = pS ∧
      (subStamp eid src pS pG j s).glosses = pG ∧
      (subStamp eid src pS pG j s).metadata.inheritedFrom = some (some eid)) ∨
     ((subStamp eid src pS pG j s).senses = s.senses ∧
      (subStamp eid src pS pG j s).glosses = s.glosses ∧
      (subStamp eid src pS pG j s).metadata.inheritedFrom =
        s.metadata.inheritedFrom)) := by
  simp only [subStamp]
  split
  · exact ⟨rfl, rfl, rfl, Or.inl ⟨rfl, rfl, rfl⟩⟩
  · exact ⟨rfl, rfl, rfl, Or.inr ⟨rfl, rfl, rfl⟩⟩

theorem inheritTop_spec (e prev : Entry) :
    (inheritTop e prev).lemmaStr = e.lemmaStr ∧
    (inheritTop e prev).subentries = e.subentries ∧
    (inheritTop e prev).id = e.id ∧
    (inheritTop e prev).metadata.mtype = e.metadata.mtype ∧
    (inheritTop e prev = e ∨
     ((inheritTop e prev).senses = prev.senses ∧
      (inheritTop e prev).glosses = prev.glosses ∧
      (inheritTop e prev).metadata.inheritedFrom = some prev.id)) := by
  unfold inheritTop
  split
  · exact ⟨rfl, rfl, rfl, rfl, Or.inr ⟨rfl, rfl, rfl⟩⟩
  · exact ⟨rfl, rfl, rfl, rfl, Or.inl rfl⟩

theorem subStamp_id (eid src : List Char) (pS : List Sense)
    (pG : List (List Char)) (j : Nat) (s : Entry) :
    (subStamp eid src pS pG j s).id = some (eid ++ '-' :: Nat.toDigits 10 j) :=
  (subStamp_spec eid src pS pG j s).2.2.1

theorem assignSubIds_get_id (eid src : List Char) (pS : List Sense)
    (pG : List (List Char)) :
    ∀ (subs : List Entry) (m j : Nat)
      (hj : j < (assignSubIds eid src pS pG m subs).length),
      ((assignSubIds eid src pS pG m subs).get ⟨j, hj⟩).id =
        some (eid ++ '-' :: Nat.toDigits 10 (m + j)) := by
  intro subs
  induction subs with
  | nil =>
    intro m j hj
    simp [assignSubIds] at hj
  | cons a rest ih =>
    intro m j hj
    cases j with
    | zero =>
      show (subStamp eid src pS pG m a).id = _
      rw [subStamp_id]
      rfl
    | succ j2 =>
      have hj2 : j2 < (assignSubIds eid src pS pG (m+1) rest).length := by
        simp only [assignSubIds, List.length_cons] at hj
        omega
      show ((assignSubIds eid src pS pG (m+1) rest).get ⟨j2, hj2⟩).id = _
      rw [ih (m+1) j2 hj2]
      have hkk : m + 1 + j2 = m + (j2 + 1) := by omega
      rw [hkk]

theorem assignIds_get_id (base src : List Char) :
    ∀ (l : List Entry) (k i : Nat) (h : i < (assignIds base src k l).length),
      ((assignIds base src k l).get ⟨i, h⟩).id = some (topIdOf base (k + i)) ∧
      ∀ (j : Nat) (hj : j < ((assignIds base src k l).get ⟨i, h⟩).subentries.length),
        (((assignIds base src k l).get ⟨i, h⟩).subentries.get ⟨j, hj⟩).id =
          some (topIdOf base (k + i) ++ '-' :: Nat.toDigits 10 (1 + j)) := by
  intro l
  induction l with
  | nil =>
    intro k i h
    simp [assignIds] at h
  | cons a rest ih =>
    intro k i h
    cases i with
    | zero =>
      constructor
      · rfl
      · intro j hj
        exact assignSubIds_get_id (topIdOf base k) src a.senses a.glosses
          a.subentries 1 j hj
    | succ i2 =>
      have h2 : i2 < (assignIds base src (k+1) rest).length := by
        simp only [assignIds, List.length_cons] at h
        omega
      obtain ⟨ha, hb⟩ := ih (k+1) i2 h2
      have hkk : k + 1 + i2 = k + (i2 + 1) := by omega
      constructor
      · show ((assignIds base src (k+1) rest).get ⟨i2, h2⟩).id = _
        rw [ha, hkk]
      · intro j hj
        have hj2 : j < ((assignIds base src (k+1) rest).get ⟨i2, h2⟩).subentries.length := hj
        show (((assignIds base src (k+1) rest).get ⟨i2, h2⟩).subentries.get ⟨j, hj2⟩).id = _
        rw [hb j hj2, hkk]

/-- C5: a dash-prefixed (subentry-marked) paragraph is handled before the
list-item test — whatever its list-item flag, it never appends a top-level
entry: with no current entry it is silently dropped (contributing nothing),
and otherwise it only extends the current entry's subentry list. -/
theorem claim_C5 (p : Paragraph) (ps : List Paragraph) (acc : List Entry)
    (h : is_subentry_line (normalize_text p.text) = true) :
    parseLoop (p :: ps) acc =
      match acc with
      | [] => parseLoop ps []
      | e :: rest => parseLoop ps (attachSub e (normalize_text p.text) :: rest) := by
  have hne : (normalize_text p.text).isEmpty = false := by
    cases hx : normalize_text p.text with
    | nil => rw [hx] at h; exact absurd h (by decide)
    | cons a t => rfl
  cases acc with
  | nil =>
    simp only [parseLoop, hne, Bool.false_eq_true, if_false, h, if_true]
  | cons e rest =>
    simp only [parseLoop, hne, Bool.false_eq_true, if_false, h, if_true]

/-- A dash-prefixed paragraph that the source also flags as a list item. -/
def paraDash : Paragraph := ⟨("- x" : String).toList, true⟩

/-- Witness for C5: on a concrete dash-prefixed list-item paragraph with no
current entry, the loop drops the paragraph. -/
theorem claim_C5_witness : parseLoop [paraDash] [] = parseLoop [] [] :=
  claim_C5 paraDash [] [] (by decide)

/-- C7: in the assembled output, every entry's and subentry's flattened
gloss list is the linearization of its senses (each main gloss followed by
its synonyms, in sense order), so its length is the sum over senses of one
plus the number of synonyms. -/
theorem claim_C7 (base src : List Char) (paras : List Paragraph) (e : Entry)
    (he : e ∈ parse_document base src paras) :
    (e.glosses = sensesLinear e.senses ∧
     e.glosses.length = (e.senses.map (fun s => 1 + s.synonyms.length)).sum) ∧
    ∀ s ∈ e.subentries,
      s.glosses = sensesLinear s.senses ∧
      s.glosses.length = (s.senses.map (fun s2 => 1 + s2.synonyms.length)).sum := by
  have hloop : ∀ x ∈ parseLoop paras [],
      glossInv x ∧ ∀ s ∈ x.subentries, glossInv s := by
    apply parseLoop_invariant
    · intro raw
      refine ⟨parse_entry_text_glossInv raw, ?_⟩
      rw [parse_entry_text_subentries]
      intro s hs
      cases hs
    · intro e2 t h12
      refine ⟨h12.1, ?_⟩
      intro s hs
      rcases List.mem_append.mp hs with hs | hs
      · exact h12.2 s hs
      · rw [List.mem_singleton] at hs
        subst hs
        exact parse_entry_text_glossInv _
    · intro e2 prev h12 hp12
      obtain ⟨_, hsub, _, _, hor⟩ := inheritTop_spec e2 prev
      constructor
      · rcases hor with hor | ⟨hs1, hs2, _⟩
        · rw [hor]; exact h12.1
        · unfold glossInv
          rw [hs1, hs2]
          exact hp12.1
      · intro s hs
        rw [hsub] at hs
        exact h12.2 s hs
    · intro x hx; cases hx
  obtain ⟨e0, he0, i, rfl⟩ := assignIds_mem base src (parseLoop paras []) 1 e he
  obtain ⟨hg0, hsub0⟩ := hloop e0 he0
  constructor
  · constructor
    · exact hg0
    · show e0.glosses.length = (e0.senses.map (fun s => 1 + s.synonyms.length)).sum
      rw [hg0, sensesLinear_length]
  · intro s hs
    have hs2 : s ∈ assignSubIds (topIdOf base i) src e0.senses e0.glosses
        1 e0.subentries := hs
    obtain ⟨s0, hs0, j, rfl⟩ :=
      assignSubIds_mem (topIdOf base i) src e0.senses e0.glosses e0.subentries 1 s hs2
    obtain ⟨_, _, _, hor⟩ :=
      subStamp_spec (topIdOf base i) src e0.senses e0.glosses j s0
    rcases hor with ⟨ha, hb, _⟩ | ⟨ha, hb, _⟩
    · constructor
      · show (subStamp (topIdOf base i) src e0.senses e0.glosses j s0).glosses =
          sensesLinear (subStamp (topIdOf base i) src e0.senses e0.glosses j s0).senses
        rw [ha, hb]
        exact hg0
      · rw [ha, hb, hg0, sensesLinear_length]
    · have hgs0 := hsub0 s0 hs0
      constructor
      · show (subStamp (topIdOf base i) src e0.senses e0.glosses j s0).glosses =
          sensesLinear (subStamp (topIdOf base i) src e0.senses e0.glosses j s0).senses
        rw [ha, hb]
        exact hgs0
      · rw [ha, hb, hgs0, sensesLinear_length]

/-- Witness for C7: the first entry of the concrete inheritance document
satisfies the flat-gloss invariant. -/
theorem claim_C7_witness :
    (c2Out.get ⟨0, by decide⟩).glosses =
      sensesLinear (c2Out.get ⟨0, by decide⟩).senses ∧
    (c2Out.get ⟨0, by decide⟩).glosses.length =
      ((c2Out.get ⟨0, by decide⟩).senses.map (fun s => 1 + s.synonyms.length)).sum :=
  (claim_C7 c2Base c2Src c2Doc _ (List.get_mem _ 0 (by decide))).1

/-- C3 (amended): in the assembled output, every entry and subentry whose
metadata does not carry an `inheritedFrom` key satisfies the phrase rule: an
absent lemma together with a non-empty flattened gloss list implies
`metadata.type = "phrase"`.  (Entries whose glosses were copied by
inheritance always carry `inheritedFrom`, and they are the exception the
original claim missed.) -/
theorem claim_C3_amended (base src : List Char) (paras : List Paragraph)
    (e : Entry) (he : e ∈ parse_document base src paras) :
    (e.metadata.inheritedFrom = none → e.lemmaStr = none → e.glosses ≠ [] →
      e.metadata.mtype = some (("phrase" : String).toList)) ∧
    ∀ s ∈ e.subentries,
      s.metadata.inheritedFrom = none → s.lemmaStr = none → s.glosses ≠ [] →
        s.metadata.mtype = some (("phrase" : String).toList) := by
  have hloop : ∀ x ∈ parseLoop paras [],
      (x.metadata.inheritedFrom = none → x.lemmaStr = none → x.glosses ≠ [] →
        x.metadata.mtype = some (("phrase" : String).toList)) ∧
      ∀ s ∈ x.subentries,
        s.metadata.inheritedFrom = none → s.lemmaStr = none → s.glosses ≠ [] →
          s.metadata.mtype = some (("phrase" : String).toList) := by
    apply parseLoop_invariant
    · intro raw
      constructor
      · intro _ h2 h3
        rw [parse_entry_text_metadata]
        exact metadataOf_mtype _ _ h2 h3
      · rw [parse_entry_text_subentries]
        intro s hs
        cases hs
    · intro e2 t h12
      refine ⟨h12.1, ?_⟩
      intro s hs
      rcases List.mem_append.mp hs with hs | hs
      · exact h12.2 s hs
      · rw [List.mem_singleton] at hs
        subst hs
        intro _ h2 h3
        rw [parse_entry_text_metadata]
        exact metadataOf_mtype _ _ h2 h3
    · intro e2 prev h12 _
      obtain ⟨hlm, hsub, _, hmt, hor⟩ := inheritTop_spec e2 prev
      constructor
      · rcases hor with hor | ⟨_, _, hif⟩
        · rw [hor]; exact h12.1
        · intro h1 _ _
          rw [hif] at h1
          cases h1
      · intro s hs
        rw [hsub] at hs
        exact h12.2 s hs
    · intro x hx; cases hx
  obtain ⟨e0, he0, i, rfl⟩ := assignIds_mem base src (parseLoop paras []) 1 e he
  obtain ⟨hR0, hRsub⟩ := hloop e0 he0
  constructor
  · intro h1 h2 h3
    show (topStamp base src i e0).metadata.mtype = _
    have h1b : e0.metadata.inheritedFrom = none := h1
    have h2b : e0.lemmaStr = none := h2
    have h3b : e0.glosses ≠ [] := h3
    exact hR0 h1b h2b h3b
  · intro s hs
    have hs2 : s ∈ assignSubIds (topIdOf base i) src e0.senses e0.glosses
        1 e0.subentries := hs
    obtain ⟨s0, hs0, j, rfl⟩ :=
      assignSubIds_mem (topIdOf base i) src e0.senses e0.glosses e0.subentries 1 s hs2
    obtain ⟨hlm, hmt, _, hor⟩ :=
      subStamp_spec (topIdOf base i) src e0.senses e0.glosses j s0
    intro h1 h2 h3
    rcases hor with ⟨_, _, hif⟩ | ⟨_, hgl, hif⟩
    · rw [hif] at h1
      cases h1
    · rw [hif] at h1
      rw [hlm] at h2
      rw [hgl] at h3
      rw [hmt]
      exact hRsub s0 hs0 h1 h2 h3

/-- Witness for C3 (amended): the first entry of the concrete inheritance
document has no lemma, a non-empty gloss, no inheritance, and indeed carries
the phrase marker. -/
theorem claim_C3_amended_witness :
    (c2Out.get ⟨0, by decide⟩).metadata.mtype = some (("phrase" : String).toList) :=
  (claim_C3_amended c2Base c2Src c2Doc _ (List.get_mem _ 0 (by decide))).1
    (by decide) (by decide) (by decide)

/-- C8: ids are assigned only in the post-pass — every entry out of the
parse loop still has `id = none` (as do its subentries) — and in the final
output the i-th top-level entry (0-based position i) carries
`{base}:{i+1:04d}` while its j-th subentry carries `{parentId}-{j+1}`. -/
theorem claim_C8 (base src : List Char) (paras : List Paragraph) :
    (∀ e ∈ parseLoop paras [], e.id = none ∧ ∀ s ∈ e.subentries, s.id = none) ∧
    (∀ (i : Nat) (h : i < (parse_document base src paras).length),
      ((parse_document base src paras).get ⟨i, h⟩).id =
        some (topIdOf base (i + 1))) ∧
    ∀ (i : Nat) (h : i < (parse_document base src paras).length) (j : Nat)
      (hj : j < ((parse_document base src paras).get ⟨i, h⟩).subentries.length),
      (((parse_document base src paras).get ⟨i, h⟩).subentries.get ⟨j, hj⟩).id =
        some (subIdOf base (i + 1) (j + 1)) := by
  refine ⟨?_, ?_, ?_⟩
  · apply parseLoop_invariant
    · intro raw
      refine ⟨parse_entry_text_id raw, ?_⟩
      rw [parse_entry_text_subentries]
      intro s hs
      cases hs
    · intro e t h12
      refine ⟨h12.1, ?_⟩
      intro s hs
      rcases List.mem_append.mp hs with hs | hs
      · exact h12.2 s hs
      · rw [List.mem_singleton] at hs
        subst hs
        exact parse_entry_text_id _
    · intro e prev h12 _
      obtain ⟨_, hsub, hid, _, _⟩ := inheritTop_spec e prev
      constructor
      · rw [hid]; exact h12.1
      · intro s hs
        rw [hsub] at hs
        exact h12.2 s hs
    · intro x hx; cases hx
  · intro i h
    have hx := (assignIds_get_id base src (parseLoop paras []) 1 i h).1
    have hkk : 1 + i = i + 1 := by omega
    rw [hkk] at hx
    exact hx
  · intro i h j hj
    have hx := (assignIds_get_id base src (parseLoop paras []) 1 i h).2 j hj
    have hkk : 1 + i = i + 1 := by omega
    have hjj : 1 + j = j + 1 := by omega
    rw [hkk, hjj] at hx
    exact hx

/-- Witness for C8: the first entry of the concrete inheritance document
carries the id `"b:0001"`. -/
theorem claim_C8_witness :
    (c2Out.get ⟨0, by decide⟩).id = some (topIdOf c2Base 1) :=
  (claim_C8 c2Base c2Src c2Doc).2.1 0 (by decide)

end DictParser
